import Mathlib

/-!
Verification of the kevlar de-novo variant discovery pipeline against its
natural-language specification.  The repository ships the pipeline's
notebooks, changelog and build glue; the pipeline stages themselves
(count, novel, filter, partition, assemble, call, likelihood) are invoked
from the notebook but their python sources are not part of this tree, so
every stage below is modelled from the specification text and each claim
is settled against that model.
-/

set_option maxHeartbeats 1000000

namespace Kevlar

/-- Modelled from the spec: a DNA base; `N` is an ambiguous base.  K-mers
containing `N` are skipped by counting and yield no novel k-mers. -/
inductive Base where
  | A | C | G | T | N
deriving DecidableEq

/-- Numeric rank of a base, used for the lexicographic order on k-mers. -/
def Base.val : Base → Nat
  | .A => 0 | .C => 1 | .G => 2 | .T => 3 | .N => 4

/-- Watson-Crick complement; the ambiguous base is its own complement. -/
def Base.comp : Base → Base
  | .A => .T | .C => .G | .G => .C | .T => .A | .N => .N

/-- A k-mer is a DNA string of fixed length K. -/
abbrev Kmer := List Base

/-- Reverse complement of a DNA string. -/
def revcomp (s : Kmer) : Kmer := (s.map Base.comp).reverse

/-- Lexicographic order on DNA strings (by base rank). -/
def lexLe : Kmer → Kmer → Bool
  | [], _ => true
  | _ :: _, [] => false
  | a :: as, b :: bs =>
      if a.val < b.val then true
      else if b.val < a.val then false
      else lexLe as bs

/-- Modelled from the spec: the canonical form of a k-mer is the
lexicographic min of the string and its reverse complement. -/
def canonical (s : Kmer) : Kmer := if lexLe s (revcomp s) then s else revcomp s

/-- True when the k-mer contains an ambiguous base. -/
def hasAmbig (s : Kmer) : Bool := s.any fun b => b == Base.N

theorem Base.comp_comp (b : Base) : b.comp.comp = b := by cases b <;> rfl

theorem revcomp_revcomp (s : Kmer) : revcomp (revcomp s) = s := by
  simp [revcomp, List.map_reverse, List.map_map, Function.comp_def, Base.comp_comp]

theorem lexLe_total (s t : Kmer) : lexLe s t = true ∨ lexLe t s = true := by
  induction s generalizing t with
  | nil => left; rfl
  | cons a as ih =>
      cases t with
      | nil => right; rfl
      | cons b bs =>
          by_cases hab : a.val < b.val
          · left; simp [lexLe, hab]
          · by_cases hba : b.val < a.val
            · right; simp [lexLe, hba]
            · rcases ih bs with h | h
              · left; simp [lexLe, hab, hba, h]
              · right; simp [lexLe, hab, hba, h]

theorem canonical_idem (s : Kmer) : canonical (canonical s) = canonical s := by
  unfold canonical
  by_cases h : lexLe s (revcomp s) = true
  · simp [h]
  · simp only [h, if_false]
    rcases lexLe_total (revcomp s) (revcomp (revcomp s)) with h2 | h2
    · simp [h2]
    · rw [revcomp_revcomp] at h2
      exact absurd h2 h

/-- Counts saturate at this ceiling (spec: e.g. 255 or 65535). -/
def countCeiling : Nat := 65535

/-- Modelled from the spec: an abundance sketch over canonical k-mers.
The spec describes a Count-Min structure whose hash functions are left
unspecified; the model idealises it as an exact saturating counter
(the Count-Min sketch with perfect hashing). -/
abbrev Sketch := Kmer → Nat

/-- The empty sketch. -/
def emptySketch : Sketch := fun _ => 0

/-- Add one occurrence of a k-mer (canonicalised), saturating. -/
def sketchAdd (s : Sketch) (km : Kmer) : Sketch :=
  fun x => if x = canonical km then min (s x + 1) countCeiling else s x

/-- Abundance of a k-mer: the count stored for its canonical form. -/
def sketchCount (s : Sketch) (km : Kmer) : Nat := s (canonical km)

/-- Presence test: nonzero count. -/
def sketchHas (s : Sketch) (km : Kmer) : Bool := decide (0 < sketchCount s km)

/-- All k-length windows of a sequence, paired with their offsets. -/
def kmersOf (k : Nat) (seq : List Base) : List (Nat × Kmer) :=
  (List.range (seq.length + 1 - k)).map fun i => (i, (seq.drop i).take k)

/-- Modelled from the spec: cascaded insertion.  When filling sample i > 0
the caller may provide sample 0's sketch; a k-mer is inserted only if it
is present in that sketch. -/
def cascadeAdd (mask : Option Sketch) (s : Sketch) (km : Kmer) : Sketch :=
  match mask with
  | none => sketchAdd s km
  | some m => if sketchHas m km then sketchAdd s km else s

/-- Insert every unambiguous k-mer of one read into the sketch. -/
def countRead (mask : Option Sketch) (k : Nat) (s : Sketch) (seq : List Base) : Sketch :=
  (kmersOf k seq).foldl (fun acc p => if hasAmbig p.2 then acc else cascadeAdd mask acc p.2) s

/-- Modelled from the spec: the Count stage for one sample.  It decomposes
each read into canonical k-mers, skips k-mers containing `N`, and inserts
into the sample's sketch, optionally cascading against sample 0's sketch. -/
def countSample (mask : Option Sketch) (k : Nat) (reads : List (List Base)) : Sketch :=
  reads.foldl (countRead mask k) emptySketch

theorem foldl_preserve {α : Type} (P : Sketch → Prop) (f : Sketch → α → Sketch)
    (hf : ∀ s a, P s → P (f s a)) :
    ∀ (l : List α) (s : Sketch), P s → P (l.foldl f s) := by
  intro l
  induction l with
  | nil => intro s hs; exact hs
  | cons a as ih => intro s hs; exact ih (f s a) (hf s a hs)

theorem cascadeAdd_zero (m : Sketch) (km : Kmer) (h : sketchCount m km = 0)
    (s : Sketch) (hs : s (canonical km) = 0) (km' : Kmer) :
    (cascadeAdd (some m) s km') (canonical km) = 0 := by
  unfold cascadeAdd
  by_cases hp : sketchHas m km' = true
  · simp only [hp, if_true, sketchAdd]
    by_cases he : canonical km = canonical km'
    · exfalso
      have hp' : 0 < sketchCount m km' := by simpa [sketchHas] using hp
      have hsame : sketchCount m km' = sketchCount m km := by
        unfold sketchCount; rw [← he]
      omega
    · simp [he, hs]
  · simp only [Bool.not_eq_true] at hp
    simp [hp, hs]

theorem countSample_zero (m : Sketch) (k : Nat) (reads : List (List Base)) (km : Kmer)
    (h : sketchCount m km = 0) :
    sketchCount (countSample (some m) k reads) km = 0 := by
  have step : ∀ (s : Sketch) (seq : List Base),
      s (canonical km) = 0 → (countRead (some m) k s seq) (canonical km) = 0 := by
    intro s seq hs
    exact foldl_preserve (fun t => t (canonical km) = 0) _
      (fun t p ht => by
        by_cases ha : hasAmbig p.2 = true
        · simpa [ha] using ht
        · simpa [ha] using cascadeAdd_zero m km h t ht p.2) (kmersOf k seq) s hs
  exact foldl_preserve (fun t => t (canonical km) = 0) _ step reads emptySketch rfl

/-- C3: under cascaded sizing a k-mer is inserted into a later sample's
sketch only if present in sample 0's sketch, so a k-mer absent from
sample 0's sketch is absent from every later sample's sketch. -/
theorem cascade_absent_stays_absent (m : Sketch) (k : Nat)
    (reads : List (List Base)) (km : Kmer) (h : sketchCount m km = 0) :
    (∀ s : Sketch, cascadeAdd (some m) s km = s) ∧
    sketchCount (countSample (some m) k reads) km = 0 := by
  constructor
  · intro s
    unfold cascadeAdd
    have : sketchHas m km = false := by simp [sketchHas, h]
    simp [this]
  · exact countSample_zero m k reads km h

/-- Concrete instance of C3: the k-mer ACG is absent from an empty sample-0
sketch, so counting a read that contains it under cascade leaves it absent. -/
theorem cascade_absent_stays_absent_witness :
    sketchCount emptySketch [Base.A, Base.C, Base.G] = 0 ∧
    sketchCount (countSample (some emptySketch) 3
      [[Base.A, Base.C, Base.G, Base.T]]) [Base.A, Base.C, Base.G] = 0 :=
  ⟨rfl, (cascade_absent_stays_absent emptySketch 3
      [[Base.A, Base.C, Base.G, Base.T]] [Base.A, Base.C, Base.G] rfl).2⟩

theorem sketchCount_canonical (s : Sketch) (km : Kmer) :
    sketchCount s (canonical km) = sketchCount s km := by
  unfold sketchCount
  rw [canonical_idem]

/-- A sequencing read: identifier, base sequence, quality values. -/
structure Read where
  rid : Nat
  seq : List Base
  quals : List Nat
deriving DecidableEq

/-- One novel k-mer annotation: offset within the read, the canonical
k-mer, and the abundances [case, control_1, ...]. -/
structure Annot where
  offset : Nat
  kmer : Kmer
  counts : List Nat
deriving DecidableEq

/-- An augmented read: the read plus its ordered novel k-mer annotations. -/
structure AugRead where
  read : Read
  annots : List Annot
deriving DecidableEq

/-- Modelled from the spec: the per-position novelty scan of one read by
`kevlar novel`.  A position is annotated when its k-mer is unambiguous and
its canonical form has case abundance at least `caseMin` and abundance at
most `ctrlMax` in every control sketch (both thresholds inclusive). -/
def novelAnnots (caseSk : Sketch) (ctrls : List Sketch) (caseMin ctrlMax k : Nat)
    (seq : List Base) : List Annot :=
  (kmersOf k seq).filterMap fun p =>
    if hasAmbig p.2 then none
    else if caseMin ≤ sketchCount caseSk (canonical p.2) ∧
        ∀ c ∈ ctrls, sketchCount c (canonical p.2) ≤ ctrlMax then
      some ⟨p.1, canonical p.2,
        sketchCount caseSk (canonical p.2) ::
          ctrls.map fun c => sketchCount c (canonical p.2)⟩
    else none

/-- Modelled from the spec: the optional abundance screen.  When enabled
with threshold t, a read any of whose unambiguous k-mers has case
abundance below t is discarded entirely. -/
def failsScreen (caseSk : Sketch) (screen : Option Nat) (k : Nat) (seq : List Base) : Bool :=
  match screen with
  | none => false
  | some t => (kmersOf k seq).any fun p => !hasAmbig p.2 && decide (sketchCount caseSk p.2 < t)

/-- Modelled from the spec: the Novel streaming filter (`kevlar novel`).
Reads failing the abundance screen are dropped; otherwise a read is
emitted, annotated, exactly when its list of novel k-mers is non-empty. -/
def novelFilter (screen : Option Nat) (caseSk : Sketch) (ctrls : List Sketch)
    (caseMin ctrlMax k : Nat) (reads : List Read) : List AugRead :=
  reads.filterMap fun r =>
    if failsScreen caseSk screen k r.seq then none
    else if novelAnnots caseSk ctrls caseMin ctrlMax k r.seq = [] then none
    else some ⟨r, novelAnnots caseSk ctrls caseMin ctrlMax k r.seq⟩

theorem novelAnnots_sound (caseSk : Sketch) (ctrls : List Sketch)
    (caseMin ctrlMax k : Nat) (seq : List Base) (a : Annot)
    (ha : a ∈ novelAnnots caseSk ctrls caseMin ctrlMax k seq) :
    caseMin ≤ sketchCount caseSk a.kmer ∧
      ∀ c ∈ ctrls, sketchCount c a.kmer ≤ ctrlMax := by
  unfold novelAnnots at ha
  rcases List.mem_filterMap.mp ha with ⟨p, _, hp⟩
  by_cases hamb : hasAmbig p.2 = true
  · rw [if_pos hamb] at hp; cases hp
  · rw [if_neg hamb] at hp
    by_cases hpred : caseMin ≤ sketchCount caseSk (canonical p.2) ∧
        ∀ c ∈ ctrls, sketchCount c (canonical p.2) ≤ ctrlMax
    · rw [if_pos hpred] at hp
      obtain rfl := Option.some.inj hp
      refine ⟨?_, ?_⟩
      · simpa [sketchCount_canonical] using hpred.1
      · intro c hc
        simpa [sketchCount_canonical] using hpred.2 c hc
    · rw [if_neg hpred] at hp; cases hp

/-- C1: every k-mer annotated on a Novel-stage output read satisfies the
inclusive case/control abundance predicate, and (with the optional
abundance screen disabled, its default state) a read is emitted exactly
when its list of novel k-mers is non-empty. -/
theorem novel_predicate_and_emission (screen : Option Nat) (caseSk : Sketch)
    (ctrls : List Sketch) (caseMin ctrlMax k : Nat) (reads : List Read) :
    (∀ ar ∈ novelFilter screen caseSk ctrls caseMin ctrlMax k reads,
       ∀ a ∈ ar.annots,
         caseMin ≤ sketchCount caseSk a.kmer ∧
           ∀ c ∈ ctrls, sketchCount c a.kmer ≤ ctrlMax) ∧
    (∀ r ∈ reads,
       (∃ ar ∈ novelFilter none caseSk ctrls caseMin ctrlMax k reads, ar.read = r) ↔
         novelAnnots caseSk ctrls caseMin ctrlMax k r.seq ≠ []) := by
  constructor
  · intro ar har a ha
    unfold novelFilter at har
    rcases List.mem_filterMap.mp har with ⟨r, _, hr⟩
    by_cases hscr : failsScreen caseSk screen k r.seq = true
    · rw [if_pos hscr] at hr; cases hr
    · rw [if_neg hscr] at hr
      by_cases hemp : novelAnnots caseSk ctrls caseMin ctrlMax k r.seq = []
      · rw [if_pos hemp] at hr; cases hr
      · rw [if_neg hemp] at hr
        obtain rfl := Option.some.inj hr
        exact novelAnnots_sound caseSk ctrls caseMin ctrlMax k r.seq a ha
  · intro r hrmem
    constructor
    · rintro ⟨ar, har, hread⟩
      unfold novelFilter at har
      rcases List.mem_filterMap.mp har with ⟨r', _, hr'⟩
      rw [if_neg (by simp [failsScreen] : ¬failsScreen caseSk none k r'.seq = true)] at hr'
      by_cases hemp : novelAnnots caseSk ctrls caseMin ctrlMax k r'.seq = []
      · rw [if_pos hemp] at hr'; cases hr'
      · rw [if_neg hemp] at hr'
        obtain rfl := Option.some.inj hr'
        simp only [AugRead.read] at hread
        rw [← hread]
        exact hemp
    · intro hne
      refine ⟨⟨r, novelAnnots caseSk ctrls caseMin ctrlMax k r.seq⟩, ?_, rfl⟩
      unfold novelFilter
      refine List.mem_filterMap.mpr ⟨r, hrmem, ?_⟩
      rw [if_neg (by simp [failsScreen]), if_neg hne]

/-- Concrete instance of C1: with case abundance 5 everywhere, control
abundance 0, thresholds caseMin = 1 and ctrlMax = 0, the 2-mer AC
annotated on the emitted read satisfies the abundance predicate. -/
theorem novel_predicate_and_emission_witness :
    1 ≤ sketchCount (fun _ => 5) [Base.A, Base.C] ∧
      ∀ c ∈ [(fun _ => 0 : Sketch)], sketchCount c [Base.A, Base.C] ≤ 0 :=
  (novel_predicate_and_emission none (fun _ => 5) [fun _ => 0] 1 0 2
      [⟨0, [Base.A, Base.C], []⟩]).1
    ⟨⟨0, [Base.A, Base.C], []⟩, [⟨0, [Base.A, Base.C], [5, 0]⟩]⟩ (by decide)
    ⟨0, [Base.A, Base.C], [5, 0]⟩ (by decide)

theorem filterMap_map_sublist {α β : Type} (f : α → Option β) (g : β → α)
    (hfg : ∀ a b, f a = some b → g b = a) (l : List α) :
    ((l.filterMap f).map g).Sublist l := by
  induction l with
  | nil => simp
  | cons a l ih =>
      cases h : f a with
      | none =>
          rw [List.filterMap_cons_none h]
          exact ih.cons a
      | some b =>
          rw [List.filterMap_cons_some h, List.map_cons, hfg a b h]
          exact ih.cons₂ a

/-- C9: the underlying reads emitted by the Novel filter form a
subsequence of the input stream: output is in input order, and every
emitted read's sequence and qualities are identical to its input copy —
only annotations are added on the side. -/
theorem novel_preserves_order (screen : Option Nat) (caseSk : Sketch)
    (ctrls : List Sketch) (caseMin ctrlMax k : Nat) (reads : List Read) :
    ((novelFilter screen caseSk ctrls caseMin ctrlMax k reads).map AugRead.read).Sublist
      reads := by
  unfold novelFilter
  apply filterMap_map_sublist
  intro r ar h
  by_cases hscr : failsScreen caseSk screen k r.seq = true
  · rw [if_pos hscr] at h; cases h
  · rw [if_neg hscr] at h
    by_cases hemp : novelAnnots caseSk ctrls caseMin ctrlMax k r.seq = []
    · rw [if_pos hemp] at h; cases h
    · rw [if_neg hemp] at h
      obtain rfl := Option.some.inj h
      rfl

/-- Modelled from the spec: mask membership test for the Filter stage.
The reference-genome sketch and the optional contamination sketch are
handled under a single mask interface: a hit in either discards the
k-mer. -/
def maskedBy (refr : Sketch) (contam : Option Sketch) (km : Kmer) : Bool :=
  sketchHas refr km ||
    (match contam with
     | none => false
     | some c => sketchHas c km)

/-- Disposition of one annotated k-mer instance in the Filter stage. -/
inductive Disp where
  | masked | lowAbund | valid
deriving DecidableEq

/-- Modelled from the spec: the Filter stage assigns each annotated k-mer
exactly one disposition: masked (mask hit), low abundance (recomputed
case count below `caseMin`), or validated as novel. -/
def kmerDisp (refr : Sketch) (contam : Option Sketch) (caseRe : Sketch)
    (caseMin : Nat) (km : Kmer) : Disp :=
  if maskedBy refr contam km then .masked
  else if sketchCount caseRe km < caseMin then .lowAbund
  else .valid

/-- An annotation survives the Filter stage when its k-mer is validated. -/
def keepAnnot (refr : Sketch) (contam : Option Sketch) (caseRe : Sketch)
    (caseMin : Nat) (a : Annot) : Bool :=
  kmerDisp refr contam caseRe caseMin a.kmer == Disp.valid

/-- Surviving annotations report the re-computed case abundance in place
of the pre-filtering case abundance; control abundances are unchanged. -/
def refreshAnnot (caseRe : Sketch) (a : Annot) : Annot :=
  ⟨a.offset, a.kmer, sketchCount caseRe a.kmer :: a.counts.tail⟩

/-- Modelled from the spec: the Filter stage's treatment of one augmented
read: drained reads are dropped, others pass with surviving annotations. -/
def filterRead (refr : Sketch) (contam : Option Sketch) (caseRe : Sketch)
    (caseMin : Nat) (ar : AugRead) : Option AugRead :=
  if ar.annots.filter (keepAnnot refr contam caseRe caseMin) = [] then none
  else some ⟨ar.read,
    (ar.annots.filter (keepAnnot refr contam caseRe caseMin)).map (refreshAnnot caseRe)⟩

/-- The Filter stage over a stream, with all sketches given explicitly. -/
def filterWithSketches (refr : Sketch) (contam : Option Sketch) (caseRe : Sketch)
    (caseMin : Nat) (ars : List AugRead) : List AugRead :=
  ars.filterMap (filterRead refr contam caseRe caseMin)

/-- The case sketch freshly built over the novel-read corpus. -/
def filterCaseSketch (k : Nat) (ars : List AugRead) : Sketch :=
  countSample none k (ars.map fun ar => ar.read.seq)

/-- Modelled from the spec: the full Filter stage (`kevlar filter`): it
recounts the corpus into a fresh case sketch and re-validates every
annotated k-mer against the reference mask, the optional contamination
mask, and the recomputed abundance. -/
def kevlarFilter (refr : Sketch) (contam : Option Sketch) (caseMin k : Nat)
    (ars : List AugRead) : List AugRead :=
  filterWithSketches refr contam (filterCaseSketch k ars) caseMin ars

theorem kmerDisp_valid_iff (refr : Sketch) (contam : Option Sketch) (caseRe : Sketch)
    (caseMin : Nat) (km : Kmer) :
    kmerDisp refr contam caseRe caseMin km = Disp.valid ↔
      maskedBy refr contam km = false ∧ caseMin ≤ sketchCount caseRe km := by
  unfold kmerDisp
  split_ifs with h1 h2
  · simp [h1]
  · simp [h1]; omega
  · simp [h1]; omega

theorem refreshAnnot_kmer (s : Sketch) (a : Annot) : (refreshAnnot s a).kmer = a.kmer := rfl

theorem refreshAnnot_idem (s : Sketch) (a : Annot) :
    refreshAnnot s (refreshAnnot s a) = refreshAnnot s a := by
  simp [refreshAnnot]

theorem keepAnnot_refresh (refr : Sketch) (contam : Option Sketch) (caseRe : Sketch)
    (caseMin : Nat) (a : Annot) :
    keepAnnot refr contam caseRe caseMin (refreshAnnot caseRe a) =
      keepAnnot refr contam caseRe caseMin a := rfl

/-- C2: in the Filter stage, an annotated k-mer survives exactly when it
misses the reference and contamination masks and its recomputed case
abundance reaches `caseMin`; a read is written exactly when some
annotation survives; surviving reads pass through in input order with
their underlying reads unchanged. -/
theorem filter_stage_spec (refr : Sketch) (contam : Option Sketch) (caseMin k : Nat)
    (ars : List AugRead) :
    (∀ ar' ∈ kevlarFilter refr contam caseMin k ars, ∀ a ∈ ar'.annots,
       maskedBy refr contam a.kmer = false ∧
         caseMin ≤ sketchCount (filterCaseSketch k ars) a.kmer) ∧
    (∀ ar ∈ ars,
       (filterRead refr contam (filterCaseSketch k ars) caseMin ar ≠ none ↔
         ∃ a ∈ ar.annots,
           kmerDisp refr contam (filterCaseSketch k ars) caseMin a.kmer = Disp.valid)) ∧
    ((kevlarFilter refr contam caseMin k ars).map AugRead.read).Sublist
      (ars.map AugRead.read) := by
  refine ⟨?_, ?_, ?_⟩
  · intro ar' har' a ha
    unfold kevlarFilter filterWithSketches at har'
    rcases List.mem_filterMap.mp har' with ⟨ar, _, hf⟩
    unfold filterRead at hf
    by_cases hemp : ar.annots.filter
        (keepAnnot refr contam (filterCaseSketch k ars) caseMin) = []
    · rw [if_pos hemp] at hf; cases hf
    · rw [if_neg hemp] at hf
      obtain rfl := Option.some.inj hf
      simp only [AugRead.annots] at ha
      rcases List.mem_map.mp ha with ⟨b, hb, rfl⟩
      have hkeep := (List.mem_filter.mp hb).2
      unfold keepAnnot at hkeep
      have hvalid := (kmerDisp_valid_iff refr contam (filterCaseSketch k ars)
        caseMin b.kmer).mp (by simpa using hkeep)
      simpa [refreshAnnot_kmer] using hvalid
  · intro ar _
    unfold filterRead
    by_cases hemp : ar.annots.filter
        (keepAnnot refr contam (filterCaseSketch k ars) caseMin) = []
    · rw [if_pos hemp]
      simp only [ne_eq, not_true_eq_false, false_iff]
      rintro ⟨a, ha, hv⟩
      have : a ∈ ar.annots.filter
          (keepAnnot refr contam (filterCaseSketch k ars) caseMin) :=
        List.mem_filter.mpr ⟨ha, by simp [keepAnnot, hv]⟩
      rw [hemp] at this
      cases this
    · rw [if_neg hemp]
      simp only [ne_eq, reduceCtorEq, not_false_eq_true, true_iff]
      rcases List.exists_cons_of_ne_nil hemp with ⟨a, l, hl⟩
      have ha : a ∈ ar.annots.filter
          (keepAnnot refr contam (filterCaseSketch k ars) caseMin) := by
        rw [hl]; exact List.mem_cons_self a l
      rcases List.mem_filter.mp ha with ⟨hmem, hkeep⟩
      exact ⟨a, hmem, by simpa [keepAnnot] using hkeep⟩
  · unfold kevlarFilter filterWithSketches
    have : ∀ (l : List AugRead),
        ((l.filterMap (filterRead refr contam (filterCaseSketch k ars) caseMin)).map
          AugRead.read).Sublist (l.map AugRead.read) := by
      intro l
      induction l with
      | nil => simp
      | cons ar l ih =>
          cases hf : filterRead refr contam (filterCaseSketch k ars) caseMin ar with
          | none =>
              rw [List.filterMap_cons_none hf, List.map_cons]
              exact ih.cons ar.read
          | some ar' =>
              rw [List.filterMap_cons_some hf, List.map_cons, List.map_cons]
              have : ar'.read = ar.read := by
                unfold filterRead at hf
                by_cases hemp : ar.annots.filter
                    (keepAnnot refr contam (filterCaseSketch k ars) caseMin) = []
                · rw [if_pos hemp] at hf; cases hf
                · rw [if_neg hemp] at hf
                  obtain rfl := Option.some.inj hf
                  rfl
              rw [this]
              exact ih.cons₂ ar.read
    exact this ars

/-- Concrete instance of C2: a single read whose one annotated 2-mer AC
misses the empty reference mask and has recomputed abundance 1 ≥ 1. -/
theorem filter_stage_spec_witness :
    maskedBy (fun _ => 0) none [Base.A, Base.C] = false ∧
      1 ≤ sketchCount
        (filterCaseSketch 2 [⟨⟨0, [Base.A, Base.C], []⟩, [⟨0, [Base.A, Base.C], [5]⟩]⟩])
        [Base.A, Base.C] :=
  (filter_stage_spec (fun _ => 0) none 1 2
      [⟨⟨0, [Base.A, Base.C], []⟩, [⟨0, [Base.A, Base.C], [5]⟩]⟩]).1
    ⟨⟨0, [Base.A, Base.C], []⟩, [⟨0, [Base.A, Base.C], [1]⟩]⟩ (by decide)
    ⟨0, [Base.A, Base.C], [1]⟩ (by decide)

theorem filterMap_id_of_mem {α : Type} (f : α → Option α) (l : List α)
    (h : ∀ a ∈ l, f a = some a) : l.filterMap f = l := by
  induction l with
  | nil => rfl
  | cons a l ih =>
      rw [List.filterMap_cons_some (h a (List.mem_cons_self a l)),
        ih fun b hb => h b (List.mem_cons_of_mem a hb)]

/-- C7: re-applying the Filter stage to its own output with the identical
reference, contamination, and case sketches returns the output unchanged. -/
theorem filter_idempotent (refr : Sketch) (contam : Option Sketch) (caseRe : Sketch)
    (caseMin : Nat) (ars : List AugRead) :
    filterWithSketches refr contam caseRe caseMin
        (filterWithSketches refr contam caseRe caseMin ars) =
      filterWithSketches refr contam caseRe caseMin ars := by
  unfold filterWithSketches
  apply filterMap_id_of_mem
  intro ar' har'
  rcases List.mem_filterMap.mp har' with ⟨ar, _, hf⟩
  unfold filterRead at hf
  by_cases hemp : ar.annots.filter (keepAnnot refr contam caseRe caseMin) = []
  · rw [if_pos hemp] at hf; cases hf
  · rw [if_neg hemp] at hf
    obtain rfl := Option.some.inj hf
    unfold filterRead
    simp only [AugRead.annots, AugRead.read]
    have hall : ∀ b ∈ (ar.annots.filter (keepAnnot refr contam caseRe caseMin)).map
        (refreshAnnot caseRe), keepAnnot refr contam caseRe caseMin b = true := by
      intro b hb
      rcases List.mem_map.mp hb with ⟨c, hc, rfl⟩
      rw [keepAnnot_refresh]
      exact (List.mem_filter.mp hc).2
    rw [List.filter_eq_self.mpr hall]
    have hne : (ar.annots.filter (keepAnnot refr contam caseRe caseMin)).map
        (refreshAnnot caseRe) ≠ [] := by
      simp only [ne_eq, List.map_eq_nil_iff]
      exact hemp
    rw [if_neg hne]
    have hmap : ((ar.annots.filter (keepAnnot refr contam caseRe caseMin)).map
        (refreshAnnot caseRe)).map (refreshAnnot caseRe) =
        (ar.annots.filter (keepAnnot refr contam caseRe caseMin)).map
          (refreshAnnot caseRe) := by
      rw [List.map_map]
      apply List.map_congr_left
      intro a _
      exact refreshAnnot_idem caseRe a
    rw [hmap]

/-- Count of annotated k-mer instances given one disposition. -/
def dispCount (refr : Sketch) (contam : Option Sketch) (caseRe : Sketch)
    (caseMin : Nat) (d : Disp) (ars : List AugRead) : Nat :=
  (ars.map fun ar =>
    ar.annots.countP fun a => kmerDisp refr contam caseRe caseMin a.kmer == d).sum

/-- Total number of annotated k-mer instances processed. -/
def totalAnnots (ars : List AugRead) : Nat :=
  (ars.map fun ar => ar.annots.length).sum

/-- Number of input reads the Filter stage drops. -/
def droppedReads (refr : Sketch) (contam : Option Sketch) (caseRe : Sketch)
    (caseMin : Nat) (ars : List AugRead) : Nat :=
  ars.countP fun ar => (filterRead refr contam caseRe caseMin ar).isNone

theorem countP_disp_partition (refr : Sketch) (contam : Option Sketch)
    (caseRe : Sketch) (caseMin : Nat) (l : List Annot) :
    (l.countP fun a => kmerDisp refr contam caseRe caseMin a.kmer == Disp.masked) +
      (l.countP fun a => kmerDisp refr contam caseRe caseMin a.kmer == Disp.lowAbund) +
      (l.countP fun a => kmerDisp refr contam caseRe caseMin a.kmer == Disp.valid) =
      l.length := by
  induction l with
  | nil => rfl
  | cons a l ih =>
      rw [List.countP_cons, List.countP_cons, List.countP_cons, List.length_cons]
      cases h : kmerDisp refr contam caseRe caseMin a.kmer <;> simp <;> omega

/-- C10: every annotated k-mer instance receives exactly one of the three
dispositions, so the three counters sum to the number of instances; every
input read is either written or dropped, so those counters sum to the
number of reads consumed. -/
theorem filter_counters_conserved (refr : Sketch) (contam : Option Sketch)
    (caseRe : Sketch) (caseMin : Nat) (ars : List AugRead) :
    dispCount refr contam caseRe caseMin Disp.masked ars +
        dispCount refr contam caseRe caseMin Disp.lowAbund ars +
        dispCount refr contam caseRe caseMin Disp.valid ars =
      totalAnnots ars ∧
    (filterWithSketches refr contam caseRe caseMin ars).length +
        droppedReads refr contam caseRe caseMin ars =
      ars.length := by
  constructor
  · unfold dispCount totalAnnots
    induction ars with
    | nil => rfl
    | cons ar l ih =>
        simp only [List.map_cons, List.sum_cons]
        have := countP_disp_partition refr contam caseRe caseMin ar.annots
        omega
  · unfold filterWithSketches droppedReads
    induction ars with
    | nil => rfl
    | cons ar l ih =>
        rw [List.countP_cons, List.length_cons]
        cases hf : filterRead refr contam caseRe caseMin ar with
        | none =>
            rw [List.filterMap_cons_none hf]
            simp only [hf, Option.isNone_none, if_pos rfl, if_pos trivial]
            omega
        | some ar' =>
            rw [List.filterMap_cons_some hf, List.length_cons]
            simp only [hf, Option.isNone_some, Bool.false_eq_true, if_false]
            omega

/-- Variant categories emitted by the Call stage. -/
inductive VarKind where
  | snv | insertion | deletion | mnv
deriving DecidableEq

/-- A variant call; the fields relevant to the window invariant are the
position within the reference window and the two alleles. -/
structure VariantCall where
  pos : Nat
  refAllele : List Base
  altAllele : List Base
  kind : VarKind
deriving DecidableEq

/-- One CIGAR token: aligned run, insertion into the contig, or deletion
from the reference. -/
inductive CigarOp where
  | M : Nat → CigarOp
  | I : Nat → CigarOp
  | D : Nat → CigarOp
deriving DecidableEq

/-- SNV calls inside one aligned (M) run: a mismatch at offset i becomes
an SNV whose reference allele is the window base at that coordinate. -/
def snvsInRun (window contig : List Base) (rp qp n : Nat) : List VariantCall :=
  (List.range n).filterMap fun i =>
    match window[rp + i]?, contig[qp + i]? with
    | some rb, some qb =>
        if rb ≠ qb then some ⟨rp + i, [rb], [qb], .snv⟩ else none
    | _, _ => none

/-- True when a novel k-mer of the contig lies inside the segment: one
of the segment's k-length windows has an annotated canonical k-mer. -/
def segmentSupported (novel : List Kmer) (k : Nat) (seg : List Base) : Bool :=
  (kmersOf k seg).any fun p => novel.contains (canonical p.2)

/-- Modelled from the spec: CIGAR interpretation of the Call stage.
Walks the tokens keeping a reference cursor `rp` and a contig cursor
`qp`.  Interior insertions and deletions are reported VCF-style at the
anchor base `rp - 1` and the deleted sequence is the reference slice; a
leading or trailing insertion run (the contig overhanging the reference
window) produces a call only when a novel k-mer of the contig lies
inside the inserted segment. -/
def callsWalk (novel : List Kmer) (k : Nat) (window contig : List Base) :
    Nat → Nat → List CigarOp → List VariantCall
  | _, _, [] => []
  | rp, qp, .M n :: rest =>
      snvsInRun window contig rp qp n ++
        callsWalk novel k window contig (rp + n) (qp + n) rest
  | rp, qp, .I n :: rest =>
      (if rp = 0 then
        (if segmentSupported novel k ((contig.drop qp).take n) then
          [⟨0, [], (contig.drop qp).take n, .insertion⟩]
         else [])
       else if rp = window.length then
        (if segmentSupported novel k ((contig.drop qp).take n) then
          [⟨rp - 1, (window.drop (rp - 1)).take 1,
            (window.drop (rp - 1)).take 1 ++ (contig.drop qp).take n, .insertion⟩]
         else [])
       else if rp < window.length then
        [⟨rp - 1, (window.drop (rp - 1)).take 1,
          (window.drop (rp - 1)).take 1 ++ (contig.drop qp).take n, .insertion⟩]
       else []) ++ callsWalk novel k window contig rp (qp + n) rest
  | rp, qp, .D n :: rest =>
      (if 0 < rp ∧ rp + n ≤ window.length then
        [⟨rp - 1, (window.drop (rp - 1)).take (n + 1),
          (window.drop (rp - 1)).take 1, .deletion⟩]
       else []) ++ callsWalk novel k window contig (rp + n) qp rest

/-- Modelled from the spec: merge two adjacent events into one complex
call; the reference allele is extended to the window slice covering both
events and the alternate allele keeps the intervening matching bases. -/
def mergeTwo (window : List Base) (c1 c2 : VariantCall) : VariantCall :=
  ⟨c1.pos,
   (window.drop c1.pos).take (c2.pos + c2.refAllele.length - c1.pos),
   c1.altAllele ++
     ((window.drop (c1.pos + c1.refAllele.length)).take
       (c2.pos - (c1.pos + c1.refAllele.length))) ++ c2.altAllele,
   .mnv⟩

/-- Modelled from the spec: adjacent events within `mergeDist` of one
another are merged into a single complex call; fuel keeps the recursion
structural. -/
def mergeAdjacentFuel (window : List Base) (mergeDist : Nat) :
    Nat → List VariantCall → List VariantCall
  | 0, cs => cs
  | _ + 1, [] => []
  | _ + 1, [c] => [c]
  | fuel + 1, c1 :: c2 :: rest =>
      if c1.pos + c1.refAllele.length ≤ c2.pos ∧
          c2.pos ≤ c1.pos + c1.refAllele.length + mergeDist then
        mergeAdjacentFuel window mergeDist fuel (mergeTwo window c1 c2 :: rest)
      else c1 :: mergeAdjacentFuel window mergeDist fuel (c2 :: rest)

/-- Merge pass over the position-ordered plain calls. -/
def mergeAdjacent (window : List Base) (mergeDist : Nat)
    (cs : List VariantCall) : List VariantCall :=
  mergeAdjacentFuel window mergeDist cs.length cs

/-- Modelled from the spec: the Call stage for one (contig, window) pair:
interpret the CIGAR with both cursors starting at zero, then merge
groups of adjacent events within `mergeDist` into complex calls.
`novel` carries the contig's novel k-mer annotations, used to gate
overhang insertion calls. -/
def kevlarCall (novel : List Kmer) (k : Nat) (window contig : List Base)
    (cigar : List CigarOp) (mergeDist : Nat) : List VariantCall :=
  mergeAdjacent window mergeDist (callsWalk novel k window contig 0 0 cigar)

theorem drop_take_singleton {α : Type} (l : List α) (p : Nat) (a : α)
    (h : l[p]? = some a) : (l.drop p).take 1 = [a] := by
  have hlt : p < l.length := by
    by_contra hge
    rw [List.getElem?_eq_none (Nat.le_of_not_lt hge)] at h
    cases h
  rw [List.drop_eq_getElem_cons hlt, List.take_succ_cons, List.take_zero]
  have : l[p] = a := by
    rw [List.getElem?_eq_getElem hlt] at h
    exact Option.some.inj h
  rw [this]

theorem snvsInRun_spec (window contig : List Base) (rp qp n : Nat) (vc : VariantCall)
    (h : vc ∈ snvsInRun window contig rp qp n) :
    vc.pos + vc.refAllele.length ≤ window.length ∧
      (window.drop vc.pos).take vc.refAllele.length = vc.refAllele := by
  unfold snvsInRun at h
  rcases List.mem_filterMap.mp h with ⟨i, _, hi⟩
  cases hw : window[rp + i]? with
  | none => rw [hw] at hi; cases hi
  | some rb =>
      cases hc : contig[qp + i]? with
      | none => rw [hw, hc] at hi; cases hi
      | some qb =>
          rw [hw, hc] at hi
          dsimp only at hi
          by_cases hne : rb ≠ qb
          · rw [if_pos hne] at hi
            obtain rfl := Option.some.inj hi
            have hlt : rp + i < window.length := by
              by_contra hge
              rw [List.getElem?_eq_none (Nat.le_of_not_lt hge)] at hw
              cases hw
            exact ⟨by simpa using hlt, drop_take_singleton window (rp + i) rb hw⟩
          · rw [if_neg hne] at hi
            cases hi

theorem callsWalk_spec (novel : List Kmer) (k : Nat) (window contig : List Base)
    (cigar : List CigarOp) :
    ∀ (rp qp : Nat) (vc : VariantCall),
      vc ∈ callsWalk novel k window contig rp qp cigar →
      vc.pos + vc.refAllele.length ≤ window.length ∧
        (window.drop vc.pos).take vc.refAllele.length = vc.refAllele := by
  induction cigar with
  | nil => intro rp qp vc h; cases h
  | cons op rest ih =>
      intro rp qp vc h
      cases op with
      | M n =>
          rcases List.mem_append.mp h with h1 | h2
          · exact snvsInRun_spec window contig rp qp n vc h1
          · exact ih (rp + n) (qp + n) vc h2
      | I n =>
          rcases List.mem_append.mp h with h1 | h2
          · by_cases h0 : rp = 0
            · rw [if_pos h0] at h1
              by_cases hsup : segmentSupported novel k ((contig.drop qp).take n) = true
              · rw [if_pos hsup] at h1
                rcases List.mem_singleton.mp h1 with rfl
                exact ⟨by simp, by simp⟩
              · rw [if_neg hsup] at h1; cases h1
            · rw [if_neg h0] at h1
              by_cases hend : rp = window.length
              · rw [if_pos hend] at h1
                by_cases hsup : segmentSupported novel k ((contig.drop qp).take n) = true
                · rw [if_pos hsup] at h1
                  rcases List.mem_singleton.mp h1 with rfl
                  have hlen : ((window.drop (rp - 1)).take 1).length = 1 := by
                    rw [List.length_take, List.length_drop]
                    omega
                  simp only [hlen]
                  refine ⟨by omega, trivial⟩
                · rw [if_neg hsup] at h1; cases h1
              · rw [if_neg hend] at h1
                by_cases hlt : rp < window.length
                · rw [if_pos hlt] at h1
                  rcases List.mem_singleton.mp h1 with rfl
                  have hlen : ((window.drop (rp - 1)).take 1).length = 1 := by
                    rw [List.length_take, List.length_drop]
                    omega
                  simp only [hlen]
                  refine ⟨by omega, trivial⟩
                · rw [if_neg hlt] at h1; cases h1
          · exact ih rp (qp + n) vc h2
      | D n =>
          rcases List.mem_append.mp h with h1 | h2
          · by_cases hg : 0 < rp ∧ rp + n ≤ window.length
            · rw [if_pos hg] at h1
              rcases List.mem_singleton.mp h1 with rfl
              have hlen : ((window.drop (rp - 1)).take (n + 1)).length = n + 1 := by
                rw [List.length_take, List.length_drop]
                omega
              simp only [hlen]
              refine ⟨by omega, trivial⟩
            · rw [if_neg hg] at h1; cases h1
          · exact ih (rp + n) qp vc h2

theorem mergeAdjacentFuel_spec (window : List Base) (mergeDist : Nat) :
    ∀ (fuel : Nat) (cs : List VariantCall),
      (∀ c ∈ cs, c.pos + c.refAllele.length ≤ window.length ∧
        (window.drop c.pos).take c.refAllele.length = c.refAllele) →
      ∀ c ∈ mergeAdjacentFuel window mergeDist fuel cs,
        c.pos + c.refAllele.length ≤ window.length ∧
          (window.drop c.pos).take c.refAllele.length = c.refAllele := by
  intro fuel
  induction fuel with
  | zero =>
      intro cs hcs c hc
      rw [show mergeAdjacentFuel window mergeDist 0 cs = cs from by
        cases cs with
        | nil => rfl
        | cons a t => cases t <;> rfl] at hc
      exact hcs c hc
  | succ fuel ih =>
      intro cs hcs c hc
      cases cs with
      | nil => cases hc
      | cons c1 cs' =>
          cases cs' with
          | nil =>
              rcases List.mem_singleton.mp hc with rfl
              exact hcs c (List.mem_singleton.mpr rfl)
          | cons c2 rest =>
              unfold mergeAdjacentFuel at hc
              by_cases hcond : c1.pos + c1.refAllele.length ≤ c2.pos ∧
                  c2.pos ≤ c1.pos + c1.refAllele.length + mergeDist
              · rw [if_pos hcond] at hc
                refine ih (mergeTwo window c1 c2 :: rest) ?_ c hc
                intro d hd
                rcases List.mem_cons.mp hd with rfl | hd'
                · have hP2 := hcs c2 (List.mem_cons_of_mem c1 (List.mem_cons_self c2 rest))
                  have hlen : ((window.drop c1.pos).take
                      (c2.pos + c2.refAllele.length - c1.pos)).length =
                      c2.pos + c2.refAllele.length - c1.pos := by
                    rw [List.length_take, List.length_drop]
                    omega
                  constructor
                  · show c1.pos + ((window.drop c1.pos).take
                        (c2.pos + c2.refAllele.length - c1.pos)).length ≤ window.length
                    rw [hlen]
                    omega
                  · show (window.drop c1.pos).take (((window.drop c1.pos).take
                        (c2.pos + c2.refAllele.length - c1.pos)).length) =
                      (window.drop c1.pos).take (c2.pos + c2.refAllele.length - c1.pos)
                    rw [hlen]
                · exact hcs d (List.mem_cons_of_mem c1 (List.mem_cons_of_mem c2 hd'))
              · rw [if_neg hcond] at hc
                rcases List.mem_cons.mp hc with rfl | hc'
                · exact hcs c (List.mem_cons_self c (c2 :: rest))
                · refine ih (c2 :: rest) ?_ c hc'
                  intro d hd
                  exact hcs d (List.mem_cons_of_mem c1 hd)

/-- C5: every variant call emitted by the Call stage — plain SNVs and
indels, support-gated overhang insertions, and merged complex calls —
has its reference allele equal to the reference-window slice starting at
its position, and in particular pos + |ref allele| never exceeds the
window length. -/
theorem call_ref_allele_matches_window (novel : List Kmer) (k : Nat)
    (window contig : List Base) (cigar : List CigarOp) (mergeDist : Nat)
    (vc : VariantCall) (h : vc ∈ kevlarCall novel k window contig cigar mergeDist) :
    vc.pos + vc.refAllele.length ≤ window.length ∧
      (window.drop vc.pos).take vc.refAllele.length = vc.refAllele :=
  mergeAdjacentFuel_spec window mergeDist _ _
    (fun c hc => callsWalk_spec novel k window contig cigar 0 0 c hc) vc h

/-- Concrete instance of C5: aligning AGGAA against window ACGTA with
CIGAR M5 and merge distance 1 merges the two SNVs into one complex call
at position 1 with reference allele CGT, which matches the window
slice. -/
theorem call_ref_allele_matches_window_witness :
    (⟨1, [Base.C, Base.G, Base.T], [Base.G, Base.G, Base.A], VarKind.mnv⟩
          : VariantCall).pos +
        (⟨1, [Base.C, Base.G, Base.T], [Base.G, Base.G, Base.A], VarKind.mnv⟩
          : VariantCall).refAllele.length ≤
      [Base.A, Base.C, Base.G, Base.T, Base.A].length ∧
      (([Base.A, Base.C, Base.G, Base.T, Base.A].drop
          (⟨1, [Base.C, Base.G, Base.T], [Base.G, Base.G, Base.A], VarKind.mnv⟩
            : VariantCall).pos).take
        (⟨1, [Base.C, Base.G, Base.T], [Base.G, Base.G, Base.A], VarKind.mnv⟩
          : VariantCall).refAllele.length) =
        (⟨1, [Base.C, Base.G, Base.T], [Base.G, Base.G, Base.A], VarKind.mnv⟩
          : VariantCall).refAllele :=
  call_ref_allele_matches_window [] 25
    [Base.A, Base.C, Base.G, Base.T, Base.A] [Base.A, Base.G, Base.G, Base.A, Base.A]
    [CigarOp.M 5] 1
    ⟨1, [Base.C, Base.G, Base.T], [Base.G, Base.G, Base.A], VarKind.mnv⟩ (by decide)

/-- FILTER vocabulary of the VCF output. -/
inductive FilterLabel where
  | passed | likelihoodFail | controlAbundance | abundMismatch
  | noReferenceMatch | partitionTooSmall | homopolymer | contigEndTooClose
deriving DecidableEq

/-- A call scored by the Likelihood stage; log-likelihoods are modelled
as exact rationals. -/
structure ScoredCall where
  call : VariantCall
  likeScore : ℚ
  filters : List FilterLabel
deriving DecidableEq

/-- Modelled from the spec: the de novo log-likelihood score is
log P(proband het, parents hom-ref) minus
log P(proband het, parents transmitting). -/
def denovoScore (logDenovo logTransmit : ℚ) : ℚ := logDenovo - logTransmit

/-- Negative scores earn the LikelihoodFail filter label. -/
def applyLikelihoodLabel (sc : ScoredCall) : ScoredCall :=
  if sc.likeScore < 0 then
    ⟨sc.call, sc.likeScore, sc.filters ++ [FilterLabel.likelihoodFail]⟩
  else sc

/-- Modelled from the spec: Likelihood-stage scoring of one call from the
two trio-model log-probabilities (`kevlar simlike` is not under src/). -/
def likelihoodScoreCall (logDenovo logTransmit : ℚ) (vc : VariantCall)
    (fs : List FilterLabel) : ScoredCall :=
  applyLikelihoodLabel ⟨vc, denovoScore logDenovo logTransmit, fs⟩

/-- C8: a call scored by the Likelihood stage carries the LikelihoodFail
label exactly when its de novo log-likelihood score is negative. -/
theorem likelihood_fail_iff_negative (logDenovo logTransmit : ℚ) (vc : VariantCall)
    (fs : List FilterLabel) (h : FilterLabel.likelihoodFail ∉ fs) :
    FilterLabel.likelihoodFail ∈
        (likelihoodScoreCall logDenovo logTransmit vc fs).filters ↔
      denovoScore logDenovo logTransmit < 0 := by
  unfold likelihoodScoreCall applyLikelihoodLabel
  by_cases hs : denovoScore logDenovo logTransmit < 0
  · rw [if_pos hs]
    simp [hs]
  · rw [if_neg hs]
    simp [hs, h]

/-- Concrete instance of C8: score 0 − 1 = −1 is negative, so the scored
call carries the LikelihoodFail label. -/
theorem likelihood_fail_iff_negative_witness :
    FilterLabel.likelihoodFail ∈
      (likelihoodScoreCall 0 1 ⟨0, [Base.A], [Base.C], VarKind.snv⟩ []).filters :=
  (likelihood_fail_iff_negative 0 1 ⟨0, [Base.A], [Base.C], VarKind.snv⟩ []
      (by simp)).mpr (by norm_num [denovoScore])

/-- A contig: assembled sequence plus the ids of contributing reads. -/
structure Contig where
  seq : List Base
  support : List Nat
deriving DecidableEq

/-- Largest m such that the last m bases of `a` equal the first m of `b`. -/
def suffixOverlap (a b : List Base) : Nat :=
  (List.range (min a.length b.length + 1)).foldl
    (fun best m => if a.drop (a.length - m) = b.take m then m else best) 0

/-- Best exact overlap of a read against either end of the contig. -/
def bestOverlap (c r : List Base) : Nat := max (suffixOverlap c r) (suffixOverlap r c)

/-- Extend the contig with a read along its larger-overlap end. -/
def extendContig (c r : List Base) : List Base :=
  if suffixOverlap r c ≤ suffixOverlap c r then c ++ r.drop (suffixOverlap c r)
  else r ++ c.drop (suffixOverlap r c)

/-- Candidate preference: larger overlap, then more novel k-mers, then
smaller read id. -/
def betterCand (o1 : Nat) (r1 : AugRead) (o2 : Nat) (r2 : AugRead) : Bool :=
  decide (o2 < o1) ||
    (o1 == o2 && (decide (r2.annots.length < r1.annots.length) ||
      (r1.annots.length == r2.annots.length && decide (r1.read.rid < r2.read.rid))))

/-- Pick the best read with an exact overlap of at least K and at least
the configured minimum against either contig end. -/
def pickCand (k minOvl : Nat) (c : List Base) (reads : List AugRead) : Option AugRead :=
  reads.foldl
    (fun acc r =>
      if bestOverlap c r.read.seq < k ∨ bestOverlap c r.read.seq < minOvl then acc
      else
        match acc with
        | none => some r
        | some r0 =>
            if betterCand (bestOverlap c r.read.seq) r (bestOverlap c r0.read.seq) r0 then
              some r
            else acc)
    none

/-- Repeatedly extend the contig with the best overlapping read until no
candidate remains; fuel bounds the number of extensions. -/
def growContig (k minOvl : Nat) : Nat → List Base → List Nat → List AugRead →
    List Base × List Nat × List AugRead
  | 0, c, sup, reads => (c, sup, reads)
  | fuel + 1, c, sup, reads =>
      match pickCand k minOvl c reads with
      | none => (c, sup, reads)
      | some r =>
          growContig k minOvl fuel (extendContig c r.read.seq)
            (sup ++ [r.read.rid]) (reads.erase r)

/-- Seed selection: the read carrying the most novel k-mers. -/
def pickSeed (reads : List AugRead) : Option AugRead :=
  reads.foldl
    (fun acc r =>
      match acc with
      | none => some r
      | some r0 => if r0.annots.length < r.annots.length then some r else acc)
    none

/-- One round of the greedy fallback: seed, grow, emit if long enough. -/
def greedyLoop (k minOvl minLen : Nat) : Nat → List AugRead → List Contig
  | 0, _ => []
  | fuel + 1, pool =>
      match pickSeed pool with
      | none => []
      | some seed =>
          match growContig k minOvl pool.length seed.read.seq
              [seed.read.rid] (pool.erase seed) with
          | (c, sup, rest) =>
              if minLen ≤ c.length then ⟨c, sup⟩ :: greedyLoop k minOvl minLen fuel rest
              else greedyLoop k minOvl minLen fuel rest

/-- Modelled from the spec: the homegrown greedy fallback assembler.
Seed with the read carrying the most novel k-mers, greedily extend with
the largest exact overlap (at least K and the configured minimum, ties by
novel k-mer count then read id), emit contigs of at least the minimum
length, and let remaining reads seed further contigs. -/
def greedyAssemble (k minOvl minLen : Nat) (reads : List AugRead) : List Contig :=
  greedyLoop k minOvl minLen (reads.length + 1) reads

/-- Result of assembling one partition. -/
inductive AsmResult where
  | contigs : List Contig → AsmResult
  | assemblyFail
deriving DecidableEq

/-- The fallback path: greedy assembly, or AssemblyFail when it yields
no contigs. -/
def fallbackResult (k minOvl minLen : Nat) (part : List AugRead) : AsmResult :=
  if greedyAssemble k minOvl minLen part = [] then .assemblyFail
  else .contigs (greedyAssemble k minOvl minLen part)

/-- Modelled from the spec: per-partition assembly.  The primary
de-Bruijn assembler is an external library, modelled as a function that
returns `none` on failure; when it fails or returns zero contigs the
greedy fallback is invoked. -/
def assemblePartition (primary : List AugRead → Option (List Contig))
    (k minOvl minLen : Nat) (part : List AugRead) : AsmResult :=
  match primary part with
  | some (c :: cs) => .contigs (c :: cs)
  | some [] => fallbackResult k minOvl minLen part
  | none => fallbackResult k minOvl minLen part

/-- The Assemble stage processes every partition, never aborting. -/
def assembleStage (primary : List AugRead → Option (List Contig))
    (k minOvl minLen : Nat) (parts : List (List AugRead)) : List AsmResult :=
  parts.map (assemblePartition primary k minOvl minLen)

/-- C6: when the primary assembler fails or returns zero contigs the
stage takes the greedy fallback's answer; if the fallback also yields no
contigs the partition is marked AssemblyFail; and the stage still emits
one result per partition, so processing continues rather than aborting. -/
theorem assemble_fallback_spec (primary : List AugRead → Option (List Contig))
    (k minOvl minLen : Nat) (part : List AugRead) (parts : List (List AugRead))
    (h : primary part = none ∨ primary part = some []) :
    assemblePartition primary k minOvl minLen part =
        fallbackResult k minOvl minLen part ∧
      (greedyAssemble k minOvl minLen part = [] →
        assemblePartition primary k minOvl minLen part = AsmResult.assemblyFail) ∧
      (assembleStage primary k minOvl minLen parts).length = parts.length := by
  have hfb : assemblePartition primary k minOvl minLen part =
      fallbackResult k minOvl minLen part := by
    rcases h with h | h <;> simp [assemblePartition, h]
  refine ⟨hfb, ?_, ?_⟩
  · intro hg
    rw [hfb]
    simp [fallbackResult, hg]
  · simp [assembleStage]

/-- Concrete instance of C6: on an empty partition with an always-failing
primary assembler the greedy fallback yields nothing and the stage marks
the partition AssemblyFail. -/
theorem assemble_fallback_spec_witness :
    assemblePartition (fun _ => none) 25 25 50 [] = AsmResult.assemblyFail :=
  (assemble_fallback_spec (fun _ => none) 25 25 50 [] [] (Or.inl rfl)).2.1 rfl

/-- The novel k-mers annotated on a read. -/
def annotKmers (ar : AugRead) : List Kmer := ar.annots.map Annot.kmer

/-- Two reads share a novel k-mer. -/
def sharesKmer (x y : AugRead) : Bool :=
  decide (∃ km ∈ annotKmers x, km ∈ annotKmers y)

/-- Adjacency of two read positions in the shared-novel-k-mer graph. -/
def adjB (ars : List AugRead) (i j : Nat) : Bool :=
  match ars[i]?, ars[j]? with
  | some x, some y => sharesKmer x y
  | _, _ => false

/-- Bounded reachability in the shared-k-mer graph: a path of at most
`f` edges from i to j whose intermediate nodes are read positions. -/
def reachN (ars : List AugRead) : Nat → Nat → Nat → Bool
  | 0, i, j => i == j
  | f + 1, i, j =>
      reachN ars f i j ||
        (List.range ars.length).any fun c => adjB ars i c && reachN ars f c j

/-- Decidable connectivity: paths of at most `|ars|` edges suffice. -/
def connectedB (ars : List AugRead) (i j : Nat) : Bool :=
  reachN ars ars.length i j

/-- Positions i and j are joined by a path of reads in which consecutive
reads share a novel k-mer. -/
def ConnectedIdx (ars : List AugRead) (i j : Nat) : Prop :=
  ∃ p : List Nat, p ≠ [] ∧ p.Chain' (fun a b => adjB ars a b = true) ∧
    p.head? = some i ∧ p.getLast? = some j ∧ ∀ x ∈ p, x < ars.length

theorem getElem?_some_lt {α : Type} (l : List α) (i : Nat) (x : α)
    (h : l[i]? = some x) : i < l.length := by
  by_contra hge
  rw [List.getElem?_eq_none (Nat.le_of_not_lt hge)] at h
  cases h

theorem getElem?_some_mem {α : Type} (l : List α) (i : Nat) (x : α)
    (h : l[i]? = some x) : x ∈ l := by
  have hlt := getElem?_some_lt l i x h
  rw [List.getElem?_eq_getElem hlt] at h
  have hx : l[i] = x := Option.some.inj h
  rw [← hx]
  exact List.getElem_mem hlt

theorem sharesKmer_symm (x y : AugRead) : sharesKmer x y = sharesKmer y x := by
  unfold sharesKmer
  apply decide_eq_decide.mpr
  constructor
  · rintro ⟨km, h1, h2⟩; exact ⟨km, h2, h1⟩
  · rintro ⟨km, h1, h2⟩; exact ⟨km, h2, h1⟩

theorem adjB_lt (ars : List AugRead) (i j : Nat) (h : adjB ars i j = true) :
    i < ars.length ∧ j < ars.length := by
  unfold adjB at h
  cases hi : ars[i]? with
  | none => rw [hi] at h; cases hj : ars[j]? <;> rw [hj] at h <;> cases h
  | some x =>
      cases hj : ars[j]? with
      | none => rw [hi, hj] at h; cases h
      | some y => exact ⟨getElem?_some_lt ars i x hi, getElem?_some_lt ars j y hj⟩

theorem adjB_symm (ars : List AugRead) (i j : Nat) : adjB ars i j = adjB ars j i := by
  unfold adjB
  cases hi : ars[i]? <;> cases hj : ars[j]? <;> simp [sharesKmer_symm]

theorem reachN_succ_of (ars : List AugRead) (f i j : Nat)
    (h : reachN ars f i j = true) : reachN ars (f + 1) i j = true := by
  unfold reachN
  rw [h]
  rfl

theorem reachN_mono (ars : List AugRead) (f g i j : Nat) (hfg : f ≤ g)
    (h : reachN ars f i j = true) : reachN ars g i j = true := by
  induction g with
  | zero =>
      have : f = 0 := Nat.le_zero.mp hfg
      rw [← this]; exact h
  | succ g ih =>
      rcases Nat.lt_or_ge f (g + 1) with hlt | hge
      · exact reachN_succ_of ars g i j (ih (Nat.lt_succ_iff.mp hlt))
      · have : f = g + 1 := Nat.le_antisymm hfg hge
        rw [← this]; exact h

theorem reachN_sound (ars : List AugRead) :
    ∀ (f i j : Nat), i < ars.length → reachN ars f i j = true →
      ConnectedIdx ars i j := by
  intro f
  induction f with
  | zero =>
      intro i j hi h
      unfold reachN at h
      have : i = j := by simpa using h
      refine ⟨[i], by simp, List.chain'_singleton i, rfl, ?_, ?_⟩
      · rw [this]; rfl
      · intro x hx
        rw [List.mem_singleton.mp hx]
        exact hi
  | succ f ih =>
      intro i j hi h
      rcases Bool.or_eq_true _ _ |>.mp h with h1 | h2
      · exact ih i j hi h1
      · rcases List.any_eq_true.mp h2 with ⟨c, _, hand⟩
        rcases Bool.and_eq_true _ _ |>.mp hand with ⟨hadj, hrest⟩
        have hc : c < ars.length := (adjB_lt ars i c hadj).2
        rcases ih c j hc hrest with ⟨p, hne, hchain, hhead, hlast, hmem⟩
        refine ⟨i :: p, by simp, ?_, rfl, ?_, ?_⟩
        · rw [List.chain'_cons']
          refine ⟨?_, hchain⟩
          intro b hb
          rw [hhead, Option.mem_some_iff] at hb
          subst hb
          exact hadj
        · cases p with
          | nil => cases hne rfl
          | cons a q => rw [List.getLast?_cons_cons]; exact hlast
        · intro x hx
          rcases List.mem_cons.mp hx with rfl | hx'
          · exact hi
          · exact hmem x hx'

theorem path_reachN (ars : List AugRead) :
    ∀ (p : List Nat) (i j : Nat), p.Chain' (fun a b => adjB ars a b = true) →
      p.head? = some i → p.getLast? = some j → (∀ x ∈ p, x < ars.length) →
      reachN ars (p.length - 1) i j = true := by
  intro p
  induction p with
  | nil => intro i j _ hh _ _; cases hh
  | cons a rest ih =>
      intro i j hchain hhead hlast hmem
      obtain rfl : a = i := Option.some.inj hhead
      cases rest with
      | nil =>
          have haj : a = j := Option.some.inj hlast
          rw [haj]
          simp [reachN]
      | cons c rest' =>
          rcases List.chain'_cons.mp hchain with ⟨hadj, hchain'⟩
          rw [List.getLast?_cons_cons] at hlast
          have hstep := ih c j hchain' rfl hlast
            (fun x hx => hmem x (List.mem_cons_of_mem a hx))
          have hc : c < ars.length := (adjB_lt ars a c hadj).2
          show reachN ars ((c :: rest').length) a j = true
          unfold reachN
          apply Bool.or_eq_true _ _ |>.mpr
          right
          apply List.any_eq_true.mpr
          refine ⟨c, List.mem_range.mpr hc, ?_⟩
          apply Bool.and_eq_true _ _ |>.mpr
          exact ⟨hadj, by simpa using hstep⟩


theorem exists_dup_split {α : Type} (p : List α) (h : ¬ p.Nodup) :
    ∃ (a : List α) (x : α) (b c : List α), p = a ++ x :: b ++ x :: c := by
  induction p with
  | nil => exact absurd List.nodup_nil h
  | cons y rest ih =>
      by_cases hy : y ∈ rest
      · rcases List.append_of_mem hy with ⟨b, c, rfl⟩
        exact ⟨[], y, b, c, rfl⟩
      · have hrest : ¬ rest.Nodup := fun hn => h (List.nodup_cons.mpr ⟨hy, hn⟩)
        rcases ih hrest with ⟨a, x, b, c, rfl⟩
        exact ⟨y :: a, x, b, c, rfl⟩

theorem nodup_path (ars : List AugRead) :
    ∀ (len : Nat) (p : List Nat) (i j : Nat), p.length ≤ len →
      p.Chain' (fun a b => adjB ars a b = true) →
      p.head? = some i → p.getLast? = some j → (∀ x ∈ p, x < ars.length) →
      ∃ q : List Nat, q.Nodup ∧ q.Chain' (fun a b => adjB ars a b = true) ∧
        q.head? = some i ∧ q.getLast? = some j ∧ ∀ x ∈ q, x < ars.length := by
  intro len
  induction len with
  | zero =>
      intro p i j hlen hchain hhead hlast hmem
      have hpnil : p = [] := List.length_eq_zero.mp (Nat.le_zero.mp hlen)
      rw [hpnil] at hhead
      cases hhead
  | succ len ih =>
      intro p i j hlen hchain hhead hlast hmem
      by_cases hnd : p.Nodup
      · exact ⟨p, hnd, hchain, hhead, hlast, hmem⟩
      · rcases exists_dup_split p hnd with ⟨a, x, b, c, rfl⟩
        have hre : a ++ x :: b ++ x :: c = a ++ ((x :: b) ++ (x :: c)) := by
          simp
        rw [hre] at hchain hhead hlast hmem hlen
        rcases List.chain'_append.mp hchain with ⟨hca, hcbc, hlink1⟩
        rcases List.chain'_append.mp hcbc with ⟨_, hcxc, _⟩
        have hchain' : (a ++ x :: c).Chain' (fun u v => adjB ars u v = true) := by
          apply List.chain'_append.mpr
          refine ⟨hca, hcxc, ?_⟩
          intro u hu v hv
          apply hlink1 u hu
          rw [List.cons_append]
          exact hv
        have hhead' : (a ++ x :: c).head? = some i := by
          cases a with
          | nil =>
              rw [List.nil_append] at hhead ⊢
              rw [List.cons_append] at hhead
              exact hhead
          | cons a0 a' =>
              rw [List.cons_append] at hhead ⊢
              exact hhead
        have hlast' : (a ++ x :: c).getLast? = some j := by
          rw [List.getLast?_append_cons]
          rw [List.getLast?_append_of_ne_nil a (by simp),
            List.getLast?_append_cons] at hlast
          exact hlast
        have hmem' : ∀ u ∈ a ++ x :: c, u < ars.length := by
          intro u hu
          apply hmem u
          rcases List.mem_append.mp hu with h1 | h1
          · exact List.mem_append.mpr (Or.inl h1)
          · refine List.mem_append.mpr (Or.inr ?_)
            rcases List.mem_cons.mp h1 with rfl | h2
            · exact List.mem_append.mpr (Or.inl (List.mem_cons_self u b))
            · exact List.mem_append.mpr (Or.inr (List.mem_cons_of_mem x h2))
        have hlen' : (a ++ x :: c).length ≤ len := by
          simp only [List.length_append, List.length_cons] at hlen ⊢
          omega
        exact ih (a ++ x :: c) i j hlen' hchain' hhead' hlast' hmem'

theorem nodup_bounded_length (n : Nat) (q : List Nat) (hnd : q.Nodup)
    (hb : ∀ x ∈ q, x < n) : q.length ≤ n := by
  have hcard : q.toFinset.card = q.length := List.toFinset_card_of_nodup hnd
  have hsub : q.toFinset ⊆ Finset.range n := by
    intro x hx
    rw [List.mem_toFinset] at hx
    exact Finset.mem_range.mpr (hb x hx)
  have := Finset.card_le_card hsub
  rw [Finset.card_range] at this
  omega

theorem connected_of_path (ars : List AugRead) (i j : Nat)
    (h : ConnectedIdx ars i j) : connectedB ars i j = true := by
  obtain ⟨p, hne, hchain, hhead, hlast, hmem⟩ := h
  obtain ⟨q, hnd, hqc, hqh, hql, hqm⟩ :=
    nodup_path ars p.length p i j (Nat.le_refl _) hchain hhead hlast hmem
  have hqlen : q.length ≤ ars.length := nodup_bounded_length ars.length q hnd hqm
  have hreach := path_reachN ars q i j hqc hqh hql hqm
  exact reachN_mono ars (q.length - 1) ars.length i j (by omega) hreach

theorem path_of_connected (ars : List AugRead) (i j : Nat) (hi : i < ars.length)
    (h : connectedB ars i j = true) : ConnectedIdx ars i j :=
  reachN_sound ars ars.length i j hi h

theorem connectedIdx_lt (ars : List AugRead) (i j : Nat)
    (h : ConnectedIdx ars i j) : i < ars.length ∧ j < ars.length := by
  obtain ⟨p, hne, _, hhead, hlast, hmem⟩ := h
  refine ⟨hmem i ?_, hmem j ?_⟩
  · cases p with
    | nil => cases hhead
    | cons a q =>
        have ha : a = i := Option.some.inj hhead
        rw [← ha]
        exact List.mem_cons_self a q
  · exact List.mem_of_getLast?_eq_some hlast

theorem connectedIdx_refl (ars : List AugRead) (i : Nat) (hi : i < ars.length) :
    ConnectedIdx ars i i :=
  ⟨[i], by simp, List.chain'_singleton i, rfl, rfl, by
    intro x hx
    rw [List.mem_singleton.mp hx]
    exact hi⟩

theorem connectedIdx_symm (ars : List AugRead) (i j : Nat)
    (h : ConnectedIdx ars i j) : ConnectedIdx ars j i := by
  obtain ⟨p, hne, hchain, hhead, hlast, hmem⟩ := h
  refine ⟨p.reverse, by simpa using hne, ?_, ?_, ?_, ?_⟩
  · apply List.chain'_reverse.mpr
    apply hchain.imp
    intro a b hab
    show adjB ars b a = true
    rw [adjB_symm]
    exact hab
  · rw [List.head?_reverse]; exact hlast
  · rw [List.getLast?_reverse]; exact hhead
  · intro x hx
    exact hmem x (List.mem_reverse.mp hx)

theorem connectedIdx_trans (ars : List AugRead) (i j k : Nat)
    (h1 : ConnectedIdx ars i j) (h2 : ConnectedIdx ars j k) :
    ConnectedIdx ars i k := by
  obtain ⟨p, hpne, hpc, hph, hpl, hpm⟩ := h1
  obtain ⟨q, hqne, hqc, hqh, hql, hqm⟩ := h2
  cases q with
  | nil => cases hqne rfl
  | cons j0 qt =>
      obtain rfl : j0 = j := Option.some.inj hqh
      cases qt with
      | nil =>
          obtain rfl : j0 = k := Option.some.inj hql
          exact ⟨p, hpne, hpc, hph, hpl, hpm⟩
      | cons c rest =>
          rcases List.chain'_cons.mp hqc with ⟨hjc, hqc'⟩
          rw [List.getLast?_cons_cons] at hql
          refine ⟨p ++ c :: rest, by simp, ?_, ?_, ?_, ?_⟩
          · apply List.chain'_append.mpr
            refine ⟨hpc, hqc', ?_⟩
            intro u hu v hv
            rw [hpl, Option.mem_some_iff] at hu
            subst hu
            rw [show (c :: rest).head? = some c from rfl, Option.mem_some_iff] at hv
            subst hv
            exact hjc
          · rw [List.head?_append_of_ne_nil p hpne]
            exact hph
          · rw [List.getLast?_append_cons]
            exact hql
          · intro x hx
            rcases List.mem_append.mp hx with h1 | h1
            · exact hpm x h1
            · exact hqm x (List.mem_cons_of_mem j0 h1)

/-- Group a worklist of read positions by a Boolean relation: the first
element seeds a group with everything related to it, the rest recurse.
Fuel keeps the recursion structural. -/
def groupByFuel (r : Nat → Nat → Bool) : Nat → List Nat → List (List Nat)
  | 0, _ => []
  | _, [] => []
  | fuel + 1, v :: rest =>
      (v :: rest.filter fun u => r v u) ::
        groupByFuel r fuel (rest.filter fun u => !r v u)

theorem groupByFuel_mem (r : Nat → Nat → Bool) :
    ∀ (fuel : Nat) (l : List Nat), ∀ g ∈ groupByFuel r fuel l,
      g ≠ [] ∧ ∀ x ∈ g, x ∈ l := by
  intro fuel
  induction fuel with
  | zero =>
      intro l g hg
      rw [show groupByFuel r 0 l = [] from by cases l <;> rfl] at hg
      cases hg
  | succ fuel ih =>
      intro l g hg
      cases l with
      | nil => cases hg
      | cons v rest =>
          rcases List.mem_cons.mp hg with rfl | hg'
          · refine ⟨by simp, ?_⟩
            intro x hx
            rcases List.mem_cons.mp hx with rfl | hx'
            · exact List.mem_cons_self x rest
            · exact List.mem_cons_of_mem v (List.mem_filter.mp hx').1
          · rcases ih (rest.filter fun u => !r v u) g hg' with ⟨hne, hsub⟩
            refine ⟨hne, ?_⟩
            intro x hx
            exact List.mem_cons_of_mem v (List.mem_filter.mp (hsub x hx)).1

theorem groupByFuel_cover (r : Nat → Nat → Bool) :
    ∀ (fuel : Nat) (l : List Nat), l.length ≤ fuel →
      ∀ x ∈ l, ∃ g ∈ groupByFuel r fuel l, x ∈ g := by
  intro fuel
  induction fuel with
  | zero =>
      intro l hl x hx
      have hnil : l = [] := List.length_eq_zero.mp (Nat.le_zero.mp hl)
      rw [hnil] at hx
      cases hx
  | succ fuel ih =>
      intro l hl x hx
      cases l with
      | nil => cases hx
      | cons v rest =>
          rcases List.mem_cons.mp hx with rfl | hxr
          · exact ⟨x :: rest.filter fun u => r x u, List.mem_cons_self _ _,
              List.mem_cons_self _ _⟩
          · by_cases hrvx : r v x = true
            · refine ⟨v :: rest.filter fun u => r v u, List.mem_cons_self _ _, ?_⟩
              exact List.mem_cons_of_mem v (List.mem_filter.mpr ⟨hxr, hrvx⟩)
            · have hxf : x ∈ rest.filter fun u => !r v u :=
                List.mem_filter.mpr ⟨hxr, by simp [hrvx]⟩
              have hlen : (rest.filter fun u => !r v u).length ≤ fuel := by
                have h1 := List.length_filter_le (fun u => !r v u) rest
                simp only [List.length_cons] at hl
                omega
              rcases ih (rest.filter fun u => !r v u) hlen x hxf with ⟨g, hg, hxg⟩
              exact ⟨g, List.mem_cons_of_mem _ hg, hxg⟩

theorem groupByFuel_rel (r : Nat → Nat → Bool) :
    ∀ (fuel : Nat) (l : List Nat),
      (∀ x ∈ l, r x x = true) →
      (∀ x ∈ l, ∀ y ∈ l, r x y = true → r y x = true) →
      (∀ x ∈ l, ∀ y ∈ l, ∀ z ∈ l, r x y = true → r y z = true → r x z = true) →
      ∀ g ∈ groupByFuel r fuel l, ∀ x ∈ g, ∀ y ∈ g, r x y = true := by
  intro fuel
  induction fuel with
  | zero =>
      intro l _ _ _ g hg
      rw [show groupByFuel r 0 l = [] from by cases l <;> rfl] at hg
      cases hg
  | succ fuel ih =>
      intro l hrefl hsymm htrans g hg
      cases l with
      | nil => cases hg
      | cons v rest =>
          have hfsub : ∀ u ∈ rest.filter (fun u => !r v u), u ∈ v :: rest :=
            fun u hu => List.mem_cons_of_mem v (List.mem_filter.mp hu).1
          rcases List.mem_cons.mp hg with rfl | hg'
          · intro x hx y hy
            have hmx : x = v ∨ (x ∈ v :: rest ∧ r v x = true) := by
              rcases List.mem_cons.mp hx with rfl | hx'
              · exact Or.inl rfl
              · exact Or.inr ⟨List.mem_cons_of_mem v (List.mem_filter.mp hx').1,
                  (List.mem_filter.mp hx').2⟩
            have hmy : y = v ∨ (y ∈ v :: rest ∧ r v y = true) := by
              rcases List.mem_cons.mp hy with rfl | hy'
              · exact Or.inl rfl
              · exact Or.inr ⟨List.mem_cons_of_mem v (List.mem_filter.mp hy').1,
                  (List.mem_filter.mp hy').2⟩
            have hv : v ∈ v :: rest := List.mem_cons_self v rest
            rcases hmx with hxv | ⟨hxl, hrvx⟩
            · rcases hmy with hyv | ⟨hyl, hrvy⟩
              · rw [hxv, hyv]; exact hrefl v hv
              · rw [hxv]; exact hrvy
            · rcases hmy with hyv | ⟨hyl, hrvy⟩
              · rw [hyv]; exact hsymm v hv x hxl hrvx
              · exact htrans x hxl v hv y hyl (hsymm v hv x hxl hrvx) hrvy
          · exact ih (rest.filter fun u => !r v u)
              (fun x hx => hrefl x (hfsub x hx))
              (fun x hx y hy => hsymm x (hfsub x hx) y (hfsub y hy))
              (fun x hx y hy z hz => htrans x (hfsub x hx) y (hfsub y hy) z (hfsub z hz))
              g hg'

theorem groupByFuel_unique (r : Nat → Nat → Bool) :
    ∀ (fuel : Nat) (l : List Nat),
      (∀ x ∈ l, r x x = true) →
      ∀ g1 ∈ groupByFuel r fuel l, ∀ g2 ∈ groupByFuel r fuel l,
        ∀ x, x ∈ g1 → x ∈ g2 → g1 = g2 := by
  intro fuel
  induction fuel with
  | zero =>
      intro l _ g1 hg1
      rw [show groupByFuel r 0 l = [] from by cases l <;> rfl] at hg1
      cases hg1
  | succ fuel ih =>
      intro l hrefl g1 hg1 g2 hg2 x hx1 hx2
      cases l with
      | nil => cases hg1
      | cons v rest =>
          have hfsub : ∀ u ∈ rest.filter (fun u => !r v u), u ∈ v :: rest :=
            fun u hu => List.mem_cons_of_mem v (List.mem_filter.mp hu).1
          have hhead : ∀ g, g ∈ groupByFuel r fuel (rest.filter fun u => !r v u) →
              x ∈ g → x ∈ v :: rest.filter (fun u => r v u) → False := by
            intro g hg hxg hxh
            have hxf : x ∈ rest.filter (fun u => !r v u) :=
              (groupByFuel_mem r fuel _ g hg).2 x hxg
            have hnr : r v x = false := by
              have := (List.mem_filter.mp hxf).2
              simpa using this
            rcases List.mem_cons.mp hxh with rfl | hxk
            · rw [hrefl x (List.mem_cons_self x rest)] at hnr
              cases hnr
            · rw [(List.mem_filter.mp hxk).2] at hnr
              cases hnr
          rcases List.mem_cons.mp hg1 with rfl | hg1'
          · rcases List.mem_cons.mp hg2 with rfl | hg2'
            · rfl
            · exact (hhead g2 hg2' hx2 hx1).elim
          · rcases List.mem_cons.mp hg2 with rfl | hg2'
            · exact (hhead g1 hg1' hx1 hx2).elim
            · exact ih (rest.filter fun u => !r v u)
                (fun u hu => hrefl u (hfsub u hu)) g1 hg1' g2 hg2' x hx1 hx2

theorem groupByFuel_same (r : Nat → Nat → Bool) :
    ∀ (fuel : Nat) (l : List Nat), l.length ≤ fuel →
      (∀ x ∈ l, r x x = true) →
      (∀ x ∈ l, ∀ y ∈ l, r x y = true → r y x = true) →
      (∀ x ∈ l, ∀ y ∈ l, ∀ z ∈ l, r x y = true → r y z = true → r x z = true) →
      ∀ x ∈ l, ∀ y ∈ l, r x y = true →
        ∃ g ∈ groupByFuel r fuel l, x ∈ g ∧ y ∈ g := by
  intro fuel
  induction fuel with
  | zero =>
      intro l hl _ _ _ x hx
      have hnil : l = [] := List.length_eq_zero.mp (Nat.le_zero.mp hl)
      rw [hnil] at hx
      cases hx
  | succ fuel ih =>
      intro l hl hrefl hsymm htrans x hx y hy hxy
      cases l with
      | nil => cases hx
      | cons v rest =>
          have hfsub : ∀ u ∈ rest.filter (fun u => !r v u), u ∈ v :: rest :=
            fun u hu => List.mem_cons_of_mem v (List.mem_filter.mp hu).1
          have hv : v ∈ v :: rest := List.mem_cons_self v rest
          by_cases hrvx : r v x = true
          · have hrvy : r v y = true := htrans v hv x hx y hy hrvx hxy
            have hxg : x ∈ v :: rest.filter (fun u => r v u) := by
              rcases List.mem_cons.mp hx with rfl | hxr
              · exact List.mem_cons_self x _
              · exact List.mem_cons_of_mem v (List.mem_filter.mpr ⟨hxr, hrvx⟩)
            have hyg : y ∈ v :: rest.filter (fun u => r v u) := by
              rcases List.mem_cons.mp hy with rfl | hyr
              · exact List.mem_cons_self y _
              · exact List.mem_cons_of_mem v (List.mem_filter.mpr ⟨hyr, hrvy⟩)
            exact ⟨v :: rest.filter (fun u => r v u), List.mem_cons_self _ _, hxg, hyg⟩
          · have hxv : x ≠ v := by
              rintro rfl
              exact hrvx (hrefl x hx)
            have hxr : x ∈ rest := (List.mem_cons.mp hx).resolve_left hxv
            have hrvy : ¬ r v y = true := by
              intro hvy
              exact hrvx (htrans v hv y hy x hx hvy (hsymm x hx y hy hxy))
            have hyv : y ≠ v := by
              rintro rfl
              exact hrvy (hrefl y hy)
            have hyr : y ∈ rest := (List.mem_cons.mp hy).resolve_left hyv
            have hxf : x ∈ rest.filter (fun u => !r v u) :=
              List.mem_filter.mpr ⟨hxr, by simp [hrvx]⟩
            have hyf : y ∈ rest.filter (fun u => !r v u) :=
              List.mem_filter.mpr ⟨hyr, by simp [hrvy]⟩
            have hlen : (rest.filter fun u => !r v u).length ≤ fuel := by
              have h1 := List.length_filter_le (fun u => !r v u) rest
              simp only [List.length_cons] at hl
              omega
            rcases ih (rest.filter fun u => !r v u) hlen
                (fun u hu => hrefl u (hfsub u hu))
                (fun u hu w hw => hsymm u (hfsub u hu) w (hfsub w hw))
                (fun u hu w hw z hz => htrans u (hfsub u hu) w (hfsub w hw) z (hfsub z hz))
                x hxf y hyf hxy with ⟨g, hg, hxg, hyg⟩
            exact ⟨g, List.mem_cons_of_mem _ hg, hxg, hyg⟩

/-- Modelled from the spec: the connected components of the
shared-novel-k-mer graph, as groups of read positions. -/
def groupIdx (ars : List AugRead) : List (List Nat) :=
  groupByFuel (connectedB ars) ars.length (List.range ars.length)

/-- The reads of one index group, in position order. -/
def materializeGroup (ars : List AugRead) (g : List Nat) : List AugRead :=
  g.filterMap fun i => ars[i]?

/-- Canonical form of a whole read sequence. -/
def canonicalSeq (r : Read) : List Base := canonical r.seq

/-- Modelled from the spec: drop reads whose canonical sequence matches
an earlier member of the component. -/
def dedupFuel : Nat → List AugRead → List AugRead
  | 0, _ => []
  | _, [] => []
  | fuel + 1, x :: rest =>
      x :: dedupFuel fuel
        (rest.filter fun y => !(canonicalSeq y.read == canonicalSeq x.read))

/-- Within-component deduplication by canonical sequence. -/
def dedupReads (l : List AugRead) : List AugRead := dedupFuel l.length l

/-- Modelled from the spec: the Partition stage (`kevlar partition`):
extract the connected components of the graph whose nodes are the
surviving reads and whose edges join reads sharing a novel k-mer, then
deduplicate reads within each component. -/
def kevlarPartition (ars : List AugRead) : List (List AugRead) :=
  (groupIdx ars).map fun g => dedupReads (materializeGroup ars g)

theorem dedupFuel_subset :
    ∀ (fuel : Nat) (l : List AugRead) (x : AugRead), x ∈ dedupFuel fuel l → x ∈ l := by
  intro fuel
  induction fuel with
  | zero =>
      intro l x hx
      rw [show dedupFuel 0 l = [] from by cases l <;> rfl] at hx
      cases hx
  | succ fuel ih =>
      intro l x hx
      cases l with
      | nil => cases hx
      | cons a rest =>
          rcases List.mem_cons.mp hx with rfl | hx'
          · exact List.mem_cons_self x rest
          · exact List.mem_cons_of_mem a
              (List.mem_filter.mp (ih _ x hx')).1

theorem dedupReads_ne_nil (l : List AugRead) (h : l ≠ []) : dedupReads l ≠ [] := by
  cases l with
  | nil => exact absurd rfl h
  | cons x rest =>
      show x :: dedupFuel rest.length
        (rest.filter fun y => !(canonicalSeq y.read == canonicalSeq x.read)) ≠ []
      simp

theorem materializeGroup_ne_nil (ars : List AugRead) (v : Nat) (g' : List Nat)
    (hv : v < ars.length) : materializeGroup ars (v :: g') ≠ [] := by
  unfold materializeGroup
  obtain ⟨x, hx⟩ : ∃ x, ars[v]? = some x := by
    rw [List.getElem?_eq_getElem hv]
    exact ⟨_, rfl⟩
  rw [List.filterMap_cons_some hx]
  simp

theorem connectedB_refl_range (ars : List AugRead) :
    ∀ x ∈ List.range ars.length, connectedB ars x x = true := by
  intro x hx
  exact connected_of_path ars x x
    (connectedIdx_refl ars x (List.mem_range.mp hx))

theorem connectedB_symm_range (ars : List AugRead) :
    ∀ x ∈ List.range ars.length, ∀ y ∈ List.range ars.length,
      connectedB ars x y = true → connectedB ars y x = true := by
  intro x hx y _ hxy
  exact connected_of_path ars y x
    (connectedIdx_symm ars x y (path_of_connected ars x y (List.mem_range.mp hx) hxy))

theorem connectedB_trans_range (ars : List AugRead) :
    ∀ x ∈ List.range ars.length, ∀ y ∈ List.range ars.length,
      ∀ z ∈ List.range ars.length,
      connectedB ars x y = true → connectedB ars y z = true →
      connectedB ars x z = true := by
  intro x hx y hy z _ hxy hyz
  exact connected_of_path ars x z
    (connectedIdx_trans ars x y z
      (path_of_connected ars x y (List.mem_range.mp hx) hxy)
      (path_of_connected ars y z (List.mem_range.mp hy) hyz))

/-- C4 (amended): every emitted partition is non-empty; every read of an
emitted partition comes from the input and carries at least one novel
k-mer; any two reads of one emitted partition are joined by a path of
input reads in which consecutive reads share a novel k-mer; and before
the within-component deduplication the index groups are exactly the
connected components of the shared-novel-k-mer graph: two read positions
share a group iff they are path-connected, and every position lies in
exactly one group. -/
theorem partition_components_spec (ars : List AugRead)
    (hann : ∀ ar ∈ ars, ar.annots ≠ []) :
    (∀ p ∈ kevlarPartition ars, p ≠ []) ∧
    (∀ p ∈ kevlarPartition ars, ∀ x ∈ p, x ∈ ars ∧ x.annots ≠ []) ∧
    (∀ p ∈ kevlarPartition ars, ∀ x ∈ p, ∀ y ∈ p,
       ∃ i j : Nat, ars[i]? = some x ∧ ars[j]? = some y ∧ ConnectedIdx ars i j) ∧
    (∀ i j : Nat, i < ars.length → j < ars.length →
       ((∃ g ∈ groupIdx ars, i ∈ g ∧ j ∈ g) ↔ ConnectedIdx ars i j)) ∧
    (∀ i : Nat, i < ars.length →
       ∃ g ∈ groupIdx ars, i ∈ g ∧ ∀ g2 ∈ groupIdx ars, i ∈ g2 → g2 = g) := by
  have hlenr : (List.range ars.length).length ≤ ars.length := by
    rw [List.length_range]
  have hgsub : ∀ g ∈ groupIdx ars, g ≠ [] ∧ ∀ x ∈ g, x ∈ List.range ars.length :=
    fun g hg => groupByFuel_mem (connectedB ars) ars.length (List.range ars.length) g hg
  have hgrel : ∀ g ∈ groupIdx ars, ∀ x ∈ g, ∀ y ∈ g, connectedB ars x y = true :=
    fun g hg => groupByFuel_rel (connectedB ars) ars.length (List.range ars.length)
      (connectedB_refl_range ars) (connectedB_symm_range ars)
      (connectedB_trans_range ars) g hg
  have hmatmem : ∀ g ∈ groupIdx ars, ∀ x ∈ materializeGroup ars g,
      ∃ i ∈ g, ars[i]? = some x := by
    intro g _ x hx
    exact List.mem_filterMap.mp hx
  refine ⟨?_, ?_, ?_, ?_, ?_⟩
  · intro p hp
    rcases List.mem_map.mp hp with ⟨g, hg, rfl⟩
    rcases hgsub g hg with ⟨hne, hsub⟩
    cases g with
    | nil => exact absurd rfl hne
    | cons v g' =>
        have hv : v < ars.length :=
          List.mem_range.mp (hsub v (List.mem_cons_self v g'))
        exact dedupReads_ne_nil _ (materializeGroup_ne_nil ars v g' hv)
  · intro p hp x hx
    rcases List.mem_map.mp hp with ⟨g, hg, rfl⟩
    have hxm : x ∈ materializeGroup ars g := dedupFuel_subset _ _ x hx
    rcases hmatmem g hg x hxm with ⟨i, _, hi⟩
    have hxin : x ∈ ars := getElem?_some_mem ars i x hi
    exact ⟨hxin, hann x hxin⟩
  · intro p hp x hx y hy
    rcases List.mem_map.mp hp with ⟨g, hg, rfl⟩
    have hxm : x ∈ materializeGroup ars g := dedupFuel_subset _ _ x hx
    have hym : y ∈ materializeGroup ars g := dedupFuel_subset _ _ y hy
    rcases hmatmem g hg x hxm with ⟨i, hig, hi⟩
    rcases hmatmem g hg y hym with ⟨j, hjg, hj⟩
    have hconn : connectedB ars i j = true := hgrel g hg i hig j hjg
    have hilt : i < ars.length := getElem?_some_lt ars i x hi
    exact ⟨i, j, hi, hj, path_of_connected ars i j hilt hconn⟩
  · intro i j hi hj
    constructor
    · rintro ⟨g, hg, hig, hjg⟩
      exact path_of_connected ars i j hi (hgrel g hg i hig j hjg)
    · intro hcon
      exact groupByFuel_same (connectedB ars) ars.length (List.range ars.length)
        hlenr (connectedB_refl_range ars) (connectedB_symm_range ars)
        (connectedB_trans_range ars) i (List.mem_range.mpr hi)
        j (List.mem_range.mpr hj) (connected_of_path ars i j hcon)
  · intro i hi
    rcases groupByFuel_cover (connectedB ars) ars.length (List.range ars.length)
        hlenr i (List.mem_range.mpr hi) with ⟨g, hg, hig⟩
    refine ⟨g, hg, hig, ?_⟩
    intro g2 hg2 hig2
    exact groupByFuel_unique (connectedB ars) ars.length (List.range ars.length)
      (connectedB_refl_range ars) g2 hg2 g hg i hig2 hig

/-- An annotated read; a second input read below shares its sequence. -/
def dupReadA : AugRead :=
  ⟨⟨0, [Base.A, Base.C], []⟩, [⟨0, [Base.A, Base.C], [5]⟩]⟩

/-- A read distinct from `dupReadA` but with the same sequence and the
same novel k-mer. -/
def dupReadB : AugRead :=
  ⟨⟨1, [Base.A, Base.C], []⟩, [⟨0, [Base.A, Base.C], [5]⟩]⟩

/-- C4 counterexample: the two reads share a novel k-mer, so the single
connected component of the shared-k-mer graph holds both reads; yet the
Partition stage emits the partition with only one of them, because the
spec's within-component deduplication removes the duplicate sequence.
The emitted partitions are therefore not exactly the connected
components. -/
theorem partition_not_exactly_components :
    sharesKmer dupReadA dupReadB = true ∧
      (groupIdx [dupReadA, dupReadB]).map
          (materializeGroup [dupReadA, dupReadB]) = [[dupReadA, dupReadB]] ∧
      kevlarPartition [dupReadA, dupReadB] = [[dupReadA]] := by decide

/-- Concrete instance of the amended C4: the partition emitted for the
duplicate pair is non-empty. -/
theorem partition_components_spec_witness :
    ([dupReadA] : List AugRead) ≠ [] :=
  (partition_components_spec [dupReadA, dupReadB] (by decide)).1 [dupReadA] (by decide)

end Kevlar
